import Mathlib

/-!
Verification of the `_CustomMarkdownify` converter
(`src/packages/markitdown/src/markitdown/converters/_markdownify.py`).

The file shallowly embeds the three overridden renderers `convert_hn`,
`convert_a` and `convert_img` as pure Lean functions.  Python strings are
modelled as Lean `String` (a wrapper around `List Char`, i.e. a sequence of
Unicode scalar values, exactly like Python's `str`).  Attributes that may be
absent are `Option String`; Python truthiness of such a value ("not `None`
and not the empty string") is the `truthy` predicate below.  Code that can
raise an uncaught exception is modelled with `Option`: a `none` result means
the Python code raises.

External collaborators that are not part of the repository (the
`markdownify` library's `chomp` helper and baseline heading rule, and the
Python standard library's `urllib.parse` and `str` methods) are modelled
from the spec, as noted on each definition.
-/

namespace Markitdown

/-- Modelled from the spec: Python `str.split(sep)` for a one-character
separator `sep` — splits on every occurrence, keeping empty pieces, so the
result always has at least one element (`"".split(",") == [""]`). -/
def splitChar (sep : Char) : List Char → List (List Char)
  | [] => [[]]
  | c :: rest =>
    let r := splitChar sep rest
    if c == sep then [] :: r
    else
      match r with
      | h :: t => (c :: h) :: t
      | [] => [[c]]

/-- Modelled from the spec: Python `str.split(sep, 1)` — split at the first
occurrence of `sep` only; `none` when `sep` does not occur. -/
def splitAtFirst (sep : Char) : List Char → Option (List Char × List Char)
  | [] => none
  | c :: rest =>
    if c == sep then some ([], rest)
    else
      match splitAtFirst sep rest with
      | some (a, b) => some (c :: a, b)
      | none => none

/-- Fuel-driven worker for `pyReplace`; the fuel starts at the length of the
subject list, which is enough because every step consumes at least one
character. -/
def replaceGo (pat rep : List Char) : Nat → List Char → List Char
  | 0, l => l
  | Nat.succ f, l =>
    match l with
    | [] => []
    | c :: rest =>
      if pat ≠ [] ∧ pat.isPrefixOf l then rep ++ replaceGo pat rep f (l.drop pat.length)
      else c :: replaceGo pat rep f rest

/-- Modelled from the spec: Python `str.replace` — replace every
non-overlapping occurrence of `pat` by `rep`, scanning left to right.  (The
source only ever calls it with the non-empty patterns `"\_"` and `"\""`.) -/
def pyReplace (s pat rep : String) : String :=
  String.mk (replaceGo pat.data rep.data s.data.length s.data)

/-- Modelled from the spec: the whitespace characters stripped by Python
`str.strip()` (ASCII whitespace; the rare non-ASCII Unicode space
characters are not relevant to any claim and are omitted). -/
def isPyWs (c : Char) : Bool :=
  c == ' ' || c == '\t' || c == '\n' || c == '\r' || c == '\x0b' || c == '\x0c'

/-- Modelled from the spec: Python `str.strip()`. -/
def pyStrip (s : String) : String :=
  String.mk (((s.data.dropWhile isPyWs).reverse.dropWhile isPyWs).reverse)

/-- Modelled from the spec: `markdownify.chomp(text)` returns
`(prefix, suffix, core)` — a single space for each of the leading/trailing
whitespace boundaries (only when the first/last character is a space), and
the stripped core text. -/
def chomp (text : String) : String × String × String :=
  ((if text.data.headD 'x' == ' ' then " " else ""),
   (if text.data.getLastD 'x' == ' ' then " " else ""),
   pyStrip text)

/-- Python truthiness of an optional string attribute: not `None` and not
the empty string. -/
def truthy : Option String → Bool
  | none => false
  | some s => !(s == "")

/-- Python `x or ""` applied to an optional attribute value. -/
def orEmpty : Option String → String
  | none => ""
  | some s => s

/-- Lowercase a character list (ASCII, like `Char.toLower`; every place the
source lowercases has already been filtered to ASCII characters). -/
def lowerList (l : List Char) : List Char := l.map Char.toLower

/-- Modelled from the spec: Python `str.lower()`. -/
def strLower (s : String) : String := String.mk (lowerList s.data)

/-! ## `urllib.parse`: `urlparse`, `urlunparse`, `quote`, `unquote`

These are Python standard-library collaborators of `convert_a`, modelled
from the spec ("parse it as a URI", "rebuild the URI with its path
component percent-decoded then re-percent-encoded") following the
documented behaviour of `urllib.parse`.  `urlparse` returns `none` where
the Python function raises `ValueError` (mismatched IPv6 bracket in the
netloc; the non-ASCII netloc checks, irrelevant to every claim, are
omitted). -/

/-- The six components of `urllib.parse.ParseResult`. -/
structure UrlParts where
  scheme : String
  netloc : String
  path : String
  params : String
  query : String
  fragment : String
deriving DecidableEq, Repr

/-- Characters allowed in a URI scheme after the initial letter. -/
def isSchemeChar (c : Char) : Bool :=
  c.isAlpha || c.isDigit || c == '+' || c == '-' || c == '.'

/-- Tab, CR and LF are removed from a URL before parsing
(`_UNSAFE_URL_BYTES_TO_REMOVE`). -/
def removeUnsafeUrlChars (l : List Char) : List Char :=
  l.filter (fun c => !(c == '\t' || c == '\r' || c == '\n'))

/-- Scheme recognition: the text before the first `:` must be non-empty,
start with an ASCII letter and consist of scheme characters; the adopted
scheme is lowercased.  Returns `none` when the URL has no explicit scheme. -/
def splitScheme (l : List Char) : Option (List Char × List Char) :=
  match splitAtFirst ':' l with
  | none => none
  | some (bef, aft) =>
    if !bef.isEmpty && (bef.headD ' ').isAlpha && bef.all isSchemeChar then
      some (lowerList bef, aft)
    else none

/-- Netloc extraction: when the remainder starts with `//`, the netloc runs
up to the next `/`, `?` or `#`; a `[` without `]` (or vice versa) raises
`ValueError`, modelled as `none`. -/
def netlocSplit (l : List Char) : Option (List Char × List Char) :=
  match l with
  | '/' :: '/' :: rest =>
    let nl := rest.takeWhile (fun c => !(c == '/' || c == '?' || c == '#'))
    let rem := rest.dropWhile (fun c => !(c == '/' || c == '?' || c == '#'))
    if (nl.contains '[' && !(nl.contains ']')) || (nl.contains ']' && !(nl.contains '[')) then none
    else some (nl, rem)
  | _ => some ([], l)

/-- Parameter extraction (`_splitparams`): split the last path segment at
its first `;`. -/
def splitParams (l : List Char) : List Char × List Char :=
  if l.contains ';' then
    if l.contains '/' then
      let r := l.reverse
      let lastSeg := (r.takeWhile (fun c => !(c == '/'))).reverse
      let bef := (r.dropWhile (fun c => !(c == '/'))).reverse
      match splitAtFirst ';' lastSeg with
      | some (a, b) => (bef ++ a, b)
      | none => (l, [])
    else
      match splitAtFirst ';' l with
      | some (a, b) => (a, b)
      | none => (l, [])
  else (l, [])

/-- Modelled from the spec: `urllib.parse.urlparse`.  `none` models a
raised `ValueError`. -/
def urlparse (s : String) : Option UrlParts :=
  let l0 := removeUnsafeUrlChars s.data
  let sl := match splitScheme l0 with
    | some (sc, rest) => (sc, rest)
    | none => ([], l0)
  match netlocSplit sl.2 with
  | none => none
  | some (nl, l1) =>
    let fs := match splitAtFirst '#' l1 with
      | some (a, b) => (a, b)
      | none => (l1, [])
    let qs := match splitAtFirst '?' fs.1 with
      | some (a, b) => (a, b)
      | none => (fs.1, [])
    let pp := splitParams qs.1
    some ⟨String.mk sl.1, String.mk nl, String.mk pp.1,
          String.mk pp.2, String.mk qs.2, String.mk fs.2⟩

/-- Modelled from the spec: `urllib.parse.urlunparse` (via `urlunsplit`). -/
def urlunparse (u : UrlParts) : String :=
  let url0 := if u.params ≠ "" then u.path ++ ";" ++ u.params else u.path
  let url1 :=
    if u.netloc ≠ "" ∨ "//".data.isPrefixOf url0.data then
      "//" ++ u.netloc ++ (if url0 ≠ "" ∧ ¬ "/".data.isPrefixOf url0.data then "/" ++ url0 else url0)
    else url0
  let url2 := if u.scheme ≠ "" then u.scheme ++ ":" ++ url1 else url1
  let url3 := if u.query ≠ "" then url2 ++ "?" ++ u.query else url2
  if u.fragment ≠ "" then url3 ++ "#" ++ u.fragment else url3

/-- Characters Python `quote(string, safe='/')` leaves unescaped:
the always-safe set (ASCII letters, digits, `_.-~`) plus the default safe
character `/`. -/
def safeChar (c : Char) : Bool :=
  c.isAlpha || c.isDigit || c == '_' || c == '.' || c == '-' || c == '~' || c == '/'

/-- Uppercase hexadecimal digit for a value below 16. -/
def hexUpper (n : Nat) : Char :=
  Char.ofNat (if n < 10 then 48 + n else 55 + n)

/-- Percent-escape of one byte, e.g. `32 ↦ "%20"`. -/
def percentEscape (b : Nat) : List Char :=
  ['%', hexUpper (b / 16), hexUpper (b % 16)]

/-- UTF-8 encoding of a Unicode scalar value, as a list of byte values. -/
def utf8Bytes (n : Nat) : List Nat :=
  if n < 0x80 then [n]
  else if n < 0x800 then [0xC0 + n / 0x40, 0x80 + n % 0x40]
  else if n < 0x10000 then
    [0xE0 + n / 0x1000, 0x80 + (n / 0x40) % 0x40, 0x80 + n % 0x40]
  else
    [0xF0 + n / 0x40000, 0x80 + (n / 0x1000) % 0x40, 0x80 + (n / 0x40) % 0x40, 0x80 + n % 0x40]

/-- Quoting of a single character: safe characters pass through, everything
else becomes the percent-escapes of its UTF-8 bytes. -/
def quoteChar (c : Char) : List Char :=
  if safeChar c then [c] else (utf8Bytes c.toNat).flatMap percentEscape

/-- Modelled from the spec: `urllib.parse.quote(s)` (default `safe='/'`). -/
def pyQuote (s : String) : String :=
  String.mk (s.data.flatMap quoteChar)

/-- Hexadecimal digit recognizer (both cases), as accepted by `unquote`. -/
def isHexDigitChar (c : Char) : Bool :=
  c.isDigit || ('A' ≤ c && c ≤ 'F') || ('a' ≤ c && c ≤ 'f')

/-- Value of a hexadecimal digit character. -/
def hexVal (c : Char) : Nat :=
  if c.isDigit then c.toNat - 48
  else if 'a' ≤ c then c.toNat - 87
  else c.toNat - 55

/-- A token of the `unquote` scanner: either a literal character or the
byte value of a valid `%XX` escape. -/
inductive Tok where
  | lit (c : Char)
  | byte (b : Nat)

/-- Fuel-driven worker for `tokenize`: every step consumes at least one
character, so fuel equal to the length of the list is always enough. -/
def tokenizeGo : Nat → List Char → List Tok
  | 0, _ => []
  | _, [] => []
  | Nat.succ f, c :: rest =>
    if c == '%' then
      match rest with
      | h1 :: h2 :: rest2 =>
        if isHexDigitChar h1 && isHexDigitChar h2 then
          Tok.byte (hexVal h1 * 16 + hexVal h2) :: tokenizeGo f rest2
        else Tok.lit c :: tokenizeGo f rest
      | _ => Tok.lit c :: tokenizeGo f rest
    else Tok.lit c :: tokenizeGo f rest

/-- Scanner of `unquote`: a `%` followed by two hex digits becomes a byte
token, anything else stays a literal character. -/
def tokenize (l : List Char) : List Tok := tokenizeGo l.length l

/-- Group maximal runs of consecutive byte tokens (which `unquote` decodes
together as one UTF-8 byte sequence), leaving literals alone. -/
def groupToks : List Tok → List (Sum Char (List Nat))
  | [] => []
  | Tok.lit c :: rest => Sum.inl c :: groupToks rest
  | Tok.byte b :: rest =>
    match groupToks rest with
    | Sum.inr bs :: gs => Sum.inr (b :: bs) :: gs
    | gs => Sum.inr [b] :: gs

/-- Prepend a byte run onto a group list, merging with a leading byte-run
group when there is one (the shape `groupToks` produces when byte tokens
are prepended). -/
def prependRun (bs : List Nat) (gs : List (Sum Char (List Nat))) :
    List (Sum Char (List Nat)) :=
  match gs with
  | Sum.inr cs :: t => Sum.inr (bs ++ cs) :: t
  | t => Sum.inr bs :: t

/-- The U+FFFD replacement character produced by `errors='replace'`. -/
def replChar : Char := Char.ofNat 0xFFFD

/-- Fuel-driven worker for `utf8DecodeReplace`: every step consumes at
least one byte, so fuel equal to the length of the list is always
enough. -/
def utf8DecodeGo : Nat → List Nat → List Char
  | 0, _ => []
  | _, [] => []
  | Nat.succ f, b0 :: bs =>
    if b0 < 0x80 then Char.ofNat b0 :: utf8DecodeGo f bs
    else if 0xC2 ≤ b0 ∧ b0 ≤ 0xDF then
      match bs with
      | b1 :: bs1 =>
        if 0x80 ≤ b1 ∧ b1 ≤ 0xBF then
          Char.ofNat ((b0 - 0xC0) * 0x40 + (b1 - 0x80)) :: utf8DecodeGo f bs1
        else replChar :: utf8DecodeGo f bs
      | [] => [replChar]
    else if 0xE0 ≤ b0 ∧ b0 ≤ 0xEF then
      match bs with
      | b1 :: b2 :: bs2 =>
        if (0x80 ≤ b1 ∧ b1 ≤ 0xBF) ∧ (0x80 ≤ b2 ∧ b2 ≤ 0xBF) ∧
           (b0 ≠ 0xE0 ∨ 0xA0 ≤ b1) ∧ (b0 ≠ 0xED ∨ b1 ≤ 0x9F) then
          Char.ofNat ((b0 - 0xE0) * 0x1000 + (b1 - 0x80) * 0x40 + (b2 - 0x80)) ::
            utf8DecodeGo f bs2
        else replChar :: utf8DecodeGo f bs
      | _ => replChar :: utf8DecodeGo f bs
    else if 0xF0 ≤ b0 ∧ b0 ≤ 0xF4 then
      match bs with
      | b1 :: b2 :: b3 :: bs3 =>
        if (0x80 ≤ b1 ∧ b1 ≤ 0xBF) ∧ (0x80 ≤ b2 ∧ b2 ≤ 0xBF) ∧ (0x80 ≤ b3 ∧ b3 ≤ 0xBF) ∧
           (b0 ≠ 0xF0 ∨ 0x90 ≤ b1) ∧ (b0 ≠ 0xF4 ∨ b1 ≤ 0x8F) then
          Char.ofNat ((b0 - 0xF0) * 0x40000 + (b1 - 0x80) * 0x1000 +
            (b2 - 0x80) * 0x40 + (b3 - 0x80)) :: utf8DecodeGo f bs3
        else replChar :: utf8DecodeGo f bs
      | _ => replChar :: utf8DecodeGo f bs
    else replChar :: utf8DecodeGo f bs

/-- UTF-8 decoding of a byte list with replacement on error
(`bytes.decode('utf-8', errors='replace')`).  Valid sequences (including
the overlong/surrogate/range side conditions) decode to their scalar
value; an invalid byte produces U+FFFD and decoding resumes at the next
byte. -/
def utf8DecodeReplace (l : List Nat) : List Char := utf8DecodeGo l.length l

/-- Decoded text of one token group. -/
def decodeGroup : Sum Char (List Nat) → List Char
  | Sum.inl c => [c]
  | Sum.inr bs => utf8DecodeReplace bs

/-- Modelled from the spec: `urllib.parse.unquote(s)` — percent-escapes are
decoded to bytes, maximal byte runs are UTF-8-decoded with replacement,
invalid escapes stay literal. -/
def pyUnquote (s : String) : String :=
  String.mk ((groupToks (tokenize s.data)).flatMap decodeGroup)

/-- The href path rewrite of `convert_a` line 63:
`quote(unquote(parsed_url.path))`. -/
def rewritePath (p : String) : String := pyQuote (pyUnquote p)

/-! ## The renderers of `_CustomMarkdownify` -/

/-- Modelled from the spec: the baseline ATX heading rule of the underlying
converter ("level `n` hashes + space + text"; inline rendering returns the
text unchanged). -/
def superConvertHn (n : Nat) (text : String) (convert_as_inline : Bool) : String :=
  if convert_as_inline then text
  else String.mk (List.replicate n '#') ++ " " ++ text

/-- Does the rendered child text begin with a newline
(`re.search(r"^\n", text)`)? -/
def startsWithNewline (text : String) : Bool :=
  text.data.headD 'x' == '\n'

/-- `convert_hn` (lines 24–37): prepend one newline before the baseline
rendering when not inline and the child text does not already begin with a
newline. -/
def convert_hn (n : Nat) (text : String) (convert_as_inline : Bool) : String :=
  if ¬ convert_as_inline ∧ ¬ startsWithNewline text then
    "\n" ++ superConvertHn n text convert_as_inline
  else superConvertHn n text convert_as_inline

/-- The options of `convert_a` read from the configuration. -/
structure LinkOptions where
  autolinks : Bool
  default_title : Bool

/-- An anchor element as seen by `convert_a`: its `href` and `title`
attributes and whether `el.find_parent("pre")` is not `None`. -/
structure AnchorEl where
  href : Option String
  title : Option String
  inPre : Bool

/-- The scheme filter and path rewrite of `convert_a` lines 59–65: `none`
means the early `return "%s%s%s" % (prefix, text, suffix)` is taken (parse
failure, or an explicit scheme outside `http`/`https`/`file`); otherwise
the rewritten href. -/
def rewriteHref (h : String) : Option String :=
  match urlparse h with
  | none => none
  | some u =>
    if u.scheme ≠ "" ∧ ¬ (["http", "https", "file"].contains (strLower u.scheme)) then none
    else some (urlunparse { u with path := rewritePath u.path })

/-- Title rendering shared by `convert_a` and `convert_img`:
`' "%s"' % title.replace('"', r'\"') if title else ""`. -/
def titlePart (title : String) : String :=
  if title ≠ "" then " \"" ++ pyReplace title "\"" "\\\"" ++ "\"" else ""

/-- Lines 67–83 of `convert_a`, after the href block: the autolink
shortcut, default titles and the final bracketed form.  `href` is the
(possibly rewritten) current value of the Python `href` variable. -/
def convertACore (opts : LinkOptions) (titleAttr : Option String) (href : Option String)
    (pre core suf : String) : String :=
  if opts.autolinks ∧ some (pyReplace core "\\_" "_") = href ∧
     ¬ truthy titleAttr ∧ ¬ opts.default_title then
    "<" ++ href.getD "" ++ ">"
  else
    let t := if opts.default_title ∧ ¬ truthy titleAttr then href else titleAttr
    let tp := match t with
      | some s => titlePart s
      | none => ""
    if truthy href then
      pre ++ "[" ++ core ++ "](" ++ href.getD "" ++ tp ++ ")" ++ suf
    else core

/-- The href block of `convert_a` (lines 54–65): the `if href:` truthiness
test and the scheme filter / rewrite, feeding `convertACore`. -/
def convertAHref (opts : LinkOptions) (el : AnchorEl) (pre core suf : String) : String :=
  match el.href with
  | none => convertACore opts el.title none pre core suf
  | some h =>
    if h = "" then convertACore opts el.title (some h) pre core suf
    else
      match rewriteHref h with
      | none => pre ++ core ++ suf
      | some h2 => convertACore opts el.title (some h2) pre core suf

/-- `convert_a` (lines 39–83). -/
def convert_a (opts : LinkOptions) (el : AnchorEl) (text : String) : String :=
  if (chomp text).2.2 = "" then ""
  else if el.inPre then (chomp text).2.2
  else convertAHref opts el (chomp text).1 (chomp text).2.2 (chomp text).2.1

/-- The options of `convert_img` read from the configuration. -/
structure ImgOptions where
  keep_data_uris : Bool
  keep_inline_images_in : List String
  image_output_dir : Option String

/-- An image element as seen by `convert_img`: its `alt`/`src`/`title`
attributes and the tag name of its immediate parent. -/
structure ImgEl where
  alt : Option String
  src : Option String
  title : Option String
  parentName : String

/-- Modelled from the spec: `os.path.basename` — the part after the last
`/`. -/
def basename (p : String) : String :=
  String.mk ((splitChar '/' p.data).getLastD [])

/-- The data-URI truncation of `convert_img` (lines 139 and 142):
`src.split(",")[0] + "..."`. -/
def truncateDataUri (src : String) : String :=
  String.mk ((splitChar ',' src.data).headD []) ++ "..."

/-- The extension derivation of `convert_img` (lines 119–125).  `none`
models a raised `IndexError`: `mime_type.split("/").pop(1)` is evaluated
outside the `try` block, so when the media-type segment contains no `/`
the exception escapes `convert_img`.  Returns the extension suffix to be
appended to the generated filename. -/
def dataUriExtension (srcData : List Char) : Option String :=
  if srcData.contains ';' then
    match (splitChar ':' ((splitChar ';' srcData).headD []))[1]? with
    | none => none
    | some mime =>
      if mime ≠ [] then
        match (splitChar '/' mime)[1]? with
        | none => none
        | some ext => some ("." ++ String.mk ext)
      else some ".png"
  else some ".png"

/-- The `src` value that reaches the final format string of `convert_img`
(lines 104–142).  `uuidHex` stands for `uuid.uuid4().hex[:8]` and `saveOk`
for the success of the base64 decode and file write inside the `try`
block (any failure there, including a missing comma making
`src.split(",")[1]` raise, is caught and falls back to truncation).
Directory creation (`os.makedirs(..., exist_ok=True)`) has no effect on
the returned string and is not modelled.  `none` models the uncaught
`IndexError` of `dataUriExtension`. -/
def imgSrc (opts : ImgOptions) (src : String) (uuidHex : String) (saveOk : Bool) :
    Option String :=
  if "data:".data.isPrefixOf src.data ∧ ¬ opts.keep_data_uris then
    match opts.image_output_dir with
    | none => some (truncateDataUri src)
    | some dir =>
      match dataUriExtension src.data with
      | none => none
      | some ext =>
        let fn := "image_" ++ uuidHex ++ ext
        if ((splitChar ',' src.data)[1]?).isSome ∧ saveOk then
          some (basename dir ++ "/" ++ basename (dir ++ "/" ++ fn))
        else some (truncateDataUri src)
  else some src

/-- `convert_img` (lines 85–144).  The result is `none` exactly when the
Python code raises an uncaught exception. -/
def convert_img (opts : ImgOptions) (el : ImgEl) (convert_as_inline : Bool)
    (uuidHex : String) (saveOk : Bool) : Option String :=
  if convert_as_inline ∧ ¬ opts.keep_inline_images_in.contains el.parentName then
    some (orEmpty el.alt)
  else
    match imgSrc opts (orEmpty el.src) uuidHex saveOk with
    | none => none
    | some s =>
      some ("![" ++ orEmpty el.alt ++ "](" ++ s ++ titlePart (orEmpty el.title) ++ ")")

/-! ## Helper lemmas -/

theorem string_data_append (a b : String) : (a ++ b).data = a.data ++ b.data := rfl

theorem string_mk_data (s : String) : String.mk s.data = s := rfl

theorem splitChar_ne_nil (sep : Char) (l : List Char) : splitChar sep l ≠ [] := by
  induction l with
  | nil => simp [splitChar]
  | cons c rest ih =>
    rw [splitChar]
    by_cases h : (c == sep) = true
    · simp [h]
    · simp only [h, if_false]
      cases hr : splitChar sep rest with
      | nil => simp
      | cons a t => simp

theorem splitChar_headD (sep : Char) (l : List Char) :
    (splitChar sep l).headD [] = l.takeWhile (fun c => !(c == sep)) := by
  induction l with
  | nil => rfl
  | cons c rest ih =>
    rw [splitChar, List.takeWhile]
    by_cases h : (c == sep) = true
    · simp [h]
    · simp only [h, if_false, Bool.not_false]
      cases hr : splitChar sep rest with
      | nil => exact absurd hr (splitChar_ne_nil sep rest)
      | cons a t =>
        rw [hr] at ih
        simp only [List.headD_cons] at ih
        simp [ih]

theorem splitChar_of_not_mem (sep : Char) (l : List Char) (h : sep ∉ l) :
    splitChar sep l = [l] := by
  induction l with
  | nil => rfl
  | cons c rest ih =>
    rw [splitChar]
    have hc : ¬ (c == sep) = true := by
      simp only [beq_iff_eq]
      intro he
      exact h (he ▸ List.mem_cons_self c rest)
    rw [if_neg hc, ih (fun hm => h (List.mem_cons_of_mem c hm))]

theorem chomp_fst_cases (t : String) : (chomp t).1 = "" ∨ (chomp t).1 = " " := by
  rw [chomp]
  dsimp only
  split <;> simp

theorem chomp_suffix_cases (t : String) : (chomp t).2.1 = "" ∨ (chomp t).2.1 = " " := by
  rw [chomp]
  dsimp only
  split <;> simp

/-! ## The claims -/

/-- Claim C8: for every anchor element whose rendered child text is empty
after chomping, `convert_a` returns exactly the empty string, regardless
of href, title, or configuration. -/
theorem claim_C8_empty_text (opts : LinkOptions) (el : AnchorEl) (text : String)
    (h : (chomp text).2.2 = "") : convert_a opts el text = "" := by
  rw [convert_a, if_pos h]

/-- Witness for C8 at `text = "  "` (whitespace only). -/
theorem claim_C8_empty_text_witness :
    (chomp "  ").2.2 = "" ∧
    convert_a ⟨true, true⟩ ⟨some "http://x", some "t", false⟩ "  " = "" :=
  ⟨by decide, claim_C8_empty_text ⟨true, true⟩ ⟨some "http://x", some "t", false⟩ "  " (by decide)⟩

/-- Claim C9: for every anchor with non-empty trimmed child text nested
inside a `pre` ancestor, `convert_a` returns the trimmed core text
unchanged — no link syntax is added (every character of the output is a
character of the trimmed text). -/
theorem claim_C9_pre_ancestor (opts : LinkOptions) (el : AnchorEl) (text : String)
    (hp : el.inPre = true) (hc : (chomp text).2.2 ≠ "") :
    convert_a opts el text = (chomp text).2.2 ∧
    (∀ ch : Char, ch ∈ (convert_a opts el text).data → ch ∈ (chomp text).2.2.data) := by
  have hmain : convert_a opts el text = (chomp text).2.2 := by
    rw [convert_a, if_neg hc, hp]
    simp
  exact ⟨hmain, fun ch hch => by rwa [hmain] at hch⟩

/-- Witness for C9 at `text = " foo "` with an `http` href. -/
theorem claim_C9_pre_ancestor_witness :
    (chomp " foo ").2.2 ≠ "" ∧
    convert_a ⟨false, false⟩ ⟨some "http://x", none, true⟩ " foo " = "foo" :=
  ⟨by decide,
   (claim_C9_pre_ancestor ⟨false, false⟩ ⟨some "http://x", none, true⟩ " foo "
     rfl (by decide)).1⟩

/-- Claim C5: for every image element rendered inline whose immediate
parent tag is not in `keep_inline_images_in`, `convert_img` returns
exactly the alt text (the empty string when the `alt` attribute is
absent), with no Markdown image syntax. -/
theorem claim_C5_inline_image_alt (opts : ImgOptions) (el : ImgEl)
    (uuidHex : String) (saveOk : Bool)
    (h : opts.keep_inline_images_in.contains el.parentName = false) :
    convert_img opts el true uuidHex saveOk = some (orEmpty el.alt) ∧
    (el.alt = none → convert_img opts el true uuidHex saveOk = some "") := by
  have hmain : convert_img opts el true uuidHex saveOk = some (orEmpty el.alt) := by
    rw [convert_img, if_pos ⟨rfl, by rw [h]; simp⟩]
  exact ⟨hmain, fun ha => by rw [hmain, ha]; rfl⟩

/-- Witness for C5: inline image with parent `a`, configuration keeps
inline images only in `td`. -/
theorem claim_C5_inline_image_alt_witness :
    (["td"] : List String).contains "a" = false ∧
    convert_img ⟨false, ["td"], none⟩ ⟨some "alttext", some "http://x/i.png", none, "a"⟩
      true "x" true = some "alttext" :=
  ⟨by decide,
   (claim_C5_inline_image_alt ⟨false, ["td"], none⟩
     ⟨some "alttext", some "http://x/i.png", none, "a"⟩ "x" true (by decide)).1⟩

/-- Claim C4: for every image element whose `src` starts with `data:`,
with `keep_data_uris = false` and no `image_output_dir`, `convert_img`
(at the default `convert_as_inline = false`) returns
`![alt](truncated_src title_part)` where `truncated_src` is the part of
`src` strictly before the first comma with `"..."` appended. -/
theorem claim_C4_data_uri_truncated (opts : ImgOptions) (el : ImgEl)
    (uuidHex : String) (saveOk : Bool)
    (hkeep : opts.keep_data_uris = false)
    (hdir : opts.image_output_dir = none)
    (hsrc : "data:".data.isPrefixOf (orEmpty el.src).data = true) :
    convert_img opts el false uuidHex saveOk =
      some ("![" ++ orEmpty el.alt ++ "](" ++
        (String.mk ((orEmpty el.src).data.takeWhile (fun c => !(c == ','))) ++ "...") ++
        titlePart (orEmpty el.title) ++ ")") := by
  rw [convert_img, if_neg (by simp)]
  rw [imgSrc, if_pos ⟨hsrc, by simp [hkeep]⟩, hdir]
  rw [truncateDataUri, splitChar_headD]

/-- Witness for C4 at the spec's example input
`src="data:image/png;base64,AAAA"`. -/
theorem claim_C4_data_uri_truncated_witness :
    "data:".data.isPrefixOf "data:image/png;base64,AAAA".data = true ∧
    convert_img ⟨false, [], none⟩
      ⟨some "alt", some "data:image/png;base64,AAAA", none, "p"⟩ false "x" true =
      some "![alt](data:image/png;base64...)" := by
  refine ⟨by decide, ?_⟩
  rw [claim_C4_data_uri_truncated ⟨false, [], none⟩
    ⟨some "alt", some "data:image/png;base64,AAAA", none, "p"⟩ "x" true rfl rfl (by decide)]
  decide

/-- Claim C10 (implicit): for every image element whose `src` starts with
`data:` but contains no comma, with `keep_data_uris = false` and no
`image_output_dir`, the src emitted by `convert_img` is the whole original
`src` with `"..."` appended — truncation removes nothing. -/
theorem claim_C10_no_comma (opts : ImgOptions) (el : ImgEl)
    (uuidHex : String) (saveOk : Bool)
    (hkeep : opts.keep_data_uris = false)
    (hdir : opts.image_output_dir = none)
    (hsrc : "data:".data.isPrefixOf (orEmpty el.src).data = true)
    (hnc : ',' ∉ (orEmpty el.src).data) :
    convert_img opts el false uuidHex saveOk =
      some ("![" ++ orEmpty el.alt ++ "](" ++ (orEmpty el.src ++ "...") ++
        titlePart (orEmpty el.title) ++ ")") := by
  rw [convert_img, if_neg (by simp)]
  rw [imgSrc, if_pos ⟨hsrc, by simp [hkeep]⟩, hdir]
  rw [truncateDataUri, splitChar_of_not_mem ',' _ hnc]
  rfl

/-- Witness for C10 at `src = "data:image/png"` (no comma at all). -/
theorem claim_C10_no_comma_witness :
    "data:".data.isPrefixOf "data:image/png".data = true ∧
    ',' ∉ "data:image/png".data ∧
    convert_img ⟨false, [], none⟩ ⟨some "a", some "data:image/png", none, "p"⟩ false "x" true =
      some "![a](data:image/png...)" := by
  refine ⟨by decide, by decide, ?_⟩
  rw [claim_C10_no_comma ⟨false, [], none⟩ ⟨some "a", some "data:image/png", none, "p"⟩
    "x" true rfl rfl (by decide) (by decide)]
  decide

/-- Claim C2: the claim states that no renderer ever raises — in
particular that `convert_img` returns a string for every `src` beginning
with `data:`, including ones whose media-type segment contains no `/`.
The code contradicts this: with an `image_output_dir` configured,
`mime_type.split("/").pop(1)` (line 122, outside the `try` block) raises
`IndexError` for `src = "data:foo;base64,AAAA"` (modelled as `none`),
while without an output directory the same element is rendered fine. -/
theorem claim_C2_convert_img_raises :
    convert_img ⟨false, [], some "out"⟩
      ⟨some "alt", some "data:foo;base64,AAAA", none, "p"⟩ false "abcd1234" true = none ∧
    convert_img ⟨false, [], none⟩
      ⟨some "alt", some "data:foo;base64,AAAA", none, "p"⟩ false "abcd1234" true =
      some "![alt](data:foo;base64...)" := by decide

/-- Counterexample to claim C3 as stated: for child text that already
begins with a newline, the non-inline output of `convert_hn` does NOT
begin with a newline before the hash markers — the code falls through to
the baseline rule, which puts the hashes first. -/
theorem claim_C3_cex :
    convert_hn 1 "\nfoo" false = "# \nfoo" ∧
    startsWithNewline (convert_hn 1 "\nfoo" false) = false := by decide

/-- Claim C3 (amended): for every non-inline heading, when the rendered
child text does not begin with a newline, `convert_hn` prepends exactly
one newline to the baseline ATX rendering (so the output begins with a
newline); when the child text already begins with a newline, `convert_hn`
returns the baseline rendering unchanged — no extra newline is added, and
the output then begins with the hash markers rather than a newline. -/
theorem claim_C3_heading_newline (n : Nat) (text : String) :
    (startsWithNewline text = false →
      convert_hn n text false = "\n" ++ superConvertHn n text false ∧
      startsWithNewline (convert_hn n text false) = true) ∧
    (startsWithNewline text = true →
      convert_hn n text false = superConvertHn n text false) := by
  constructor
  · intro h
    have he : convert_hn n text false = "\n" ++ superConvertHn n text false := by
      rw [convert_hn, if_pos ⟨by simp, by simp [h]⟩]
    exact ⟨he, by rw [he]; rfl⟩
  · intro h
    rw [convert_hn, if_neg (by simp [h])]

/-- Witness for C3 (amended) at `text = "foo"` and `text = "\nbar"`. -/
theorem claim_C3_heading_newline_witness :
    (convert_hn 1 "foo" false = "\n" ++ superConvertHn 1 "foo" false) ∧
    (convert_hn 2 "\nbar" false = superConvertHn 2 "\nbar" false) :=
  ⟨((claim_C3_heading_newline 1 "foo").1 (by decide)).1,
   (claim_C3_heading_newline 2 "\nbar").2 (by decide)⟩

/-- Counterexample to claim C1 as stated: an anchor whose href parses with
the disallowed scheme `javascript` but whose rendered text is whitespace
only.  The claim demands `prefix + text + suffix` (= `"  "`), but
`convert_a` returns `""` (the empty-text early return fires first). -/
theorem claim_C1_cex :
    urlparse "javascript:x" = some ⟨"javascript", "", "x", "", "", ""⟩ ∧
    (["http", "https", "file"].contains (strLower "javascript")) = false ∧
    chomp " " = (" ", " ", "") ∧
    convert_a ⟨false, false⟩ ⟨some "javascript:x", none, false⟩ " " = "" ∧
    ("" : String) ≠ " " ++ "" ++ " " := by decide

/-- Claim C1 (amended): for every anchor with non-empty trimmed child
text and no `pre` ancestor whose href parses successfully and declares an
explicit scheme that is not `http`/`https`/`file` (case-insensitive),
`convert_a` returns the chomped prefix + trimmed text + suffix, and adds
no Markdown link syntax of its own: every character of the output is a
character of the trimmed text or a space. -/
theorem claim_C1_scheme_filter (opts : LinkOptions) (el : AnchorEl) (text : String)
    (h : String) (u : UrlParts)
    (hpre : el.inPre = false) (hcore : (chomp text).2.2 ≠ "")
    (hhref : el.href = some h) (hparse : urlparse h = some u)
    (hscheme : u.scheme ≠ "")
    (hfilter : (["http", "https", "file"].contains (strLower u.scheme)) = false) :
    convert_a opts el text = (chomp text).1 ++ (chomp text).2.2 ++ (chomp text).2.1 ∧
    (∀ ch : Char, ch ∈ (convert_a opts el text).data →
      ch ∈ (chomp text).2.2.data ∨ ch = ' ') := by
  have hne : h ≠ "" := by
    intro he
    subst he
    have hu : (⟨"", "", "", "", "", ""⟩ : UrlParts) = u :=
      Option.some.inj (show urlparse "" = some u from hparse)
    exact hscheme (by rw [← hu])
  have hmain : convert_a opts el text =
      (chomp text).1 ++ (chomp text).2.2 ++ (chomp text).2.1 := by
    rw [convert_a, if_neg hcore, hpre]
    simp only [Bool.false_eq_true, if_false]
    rw [convertAHref, hhref]
    simp only [hne, if_false]
    rw [rewriteHref, hparse]
    simp only [if_neg, hscheme, hfilter]
    rw [if_pos ⟨hscheme, by simp [hfilter]⟩]
  refine ⟨hmain, fun ch hch => ?_⟩
  rw [hmain, string_data_append, string_data_append] at hch
  rcases List.mem_append.mp hch with h1 | h1
  · rcases List.mem_append.mp h1 with h2 | h2
    · rcases chomp_fst_cases text with he | he <;> rw [he] at h2 <;> simp at h2
      exact Or.inr h2
    · exact Or.inl h2
  · rcases chomp_suffix_cases text with he | he <;> rw [he] at h1 <;> simp at h1
    exact Or.inr h1

/-- Witness for C1 (amended) at href `javascript:alert(1)` and text
`" click "`. -/
theorem claim_C1_scheme_filter_witness :
    (chomp " click ").2.2 ≠ "" ∧
    urlparse "javascript:alert(1)" = some ⟨"javascript", "", "alert(1)", "", "", ""⟩ ∧
    convert_a ⟨false, false⟩ ⟨some "javascript:alert(1)", none, false⟩ " click " = " click " := by
  refine ⟨by decide, by decide, ?_⟩
  rw [(claim_C1_scheme_filter ⟨false, false⟩ ⟨some "javascript:alert(1)", none, false⟩
    " click " "javascript:alert(1)" ⟨"javascript", "", "alert(1)", "", "", ""⟩
    rfl (by decide) rfl (by decide) (by decide) (by decide)).1]
  decide

/-- Counterexample to claim C6 as stated: an anchor meeting every
condition the claim lists (autolinks on, no title, `default_title` off,
visible text equal to the href, which is not rewritten), yet the scheme
filter fires first and `convert_a` returns the plain text, not the
angle-bracket autolink. -/
theorem claim_C6_cex :
    pyReplace "javascript:x" "\\_" "_" = "javascript:x" ∧
    chomp "javascript:x" = ("", "", "javascript:x") ∧
    convert_a ⟨true, false⟩ ⟨some "javascript:x", none, false⟩ "javascript:x" = "javascript:x" ∧
    convert_a ⟨true, false⟩ ⟨some "javascript:x", none, false⟩ "javascript:x" ≠
      "<" ++ "javascript:x" ++ ">" := by decide

/-- Claim C6 (amended): for every anchor with non-empty trimmed child
text, no `pre` ancestor, and an href that parses and survives the scheme
filter, when autolinks are enabled, the trimmed text with every `\_`
unescaped equals the rewritten href, no title is set, and `default_title`
is off, `convert_a` returns the angle-bracket autolink `<href>`. -/
theorem claim_C6_autolink (opts : LinkOptions) (el : AnchorEl) (text : String)
    (h : String) (u : UrlParts)
    (hpre : el.inPre = false) (hcore : (chomp text).2.2 ≠ "")
    (hhref : el.href = some h) (hparse : urlparse h = some u)
    (hok : ¬ (u.scheme ≠ "" ∧ ¬ (["http", "https", "file"].contains (strLower u.scheme) = true)))
    (hauto : opts.autolinks = true) (hdt : opts.default_title = false)
    (htitle : truthy el.title = false)
    (heq : pyReplace (chomp text).2.2 "\\_" "_" =
      urlunparse { u with path := rewritePath u.path }) :
    convert_a opts el text =
      "<" ++ urlunparse { u with path := rewritePath u.path } ++ ">" := by
  rw [convert_a, if_neg hcore, hpre]
  simp only [Bool.false_eq_true, if_false]
  rw [convertAHref, hhref]
  dsimp only
  by_cases hne : h = ""
  · subst hne
    have hu : (⟨"", "", "", "", "", ""⟩ : UrlParts) = u :=
      Option.some.inj (show urlparse "" = some u from hparse)
    rw [if_pos rfl, convertACore,
      if_pos ⟨hauto, by rw [heq, ← hu]; rfl, by simp [htitle], by simp [hdt]⟩]
    rw [← hu]
    rfl
  · rw [if_neg hne, rewriteHref, hparse]
    dsimp only
    rw [if_neg hok]
    dsimp only
    rw [convertACore, if_pos ⟨hauto, by rw [heq], by simp [htitle], by simp [hdt]⟩]
    rfl

/-- Witness for C6 (amended) at the spec's example: text and href both
`http://example.com`. -/
theorem claim_C6_autolink_witness :
    urlparse "http://example.com" = some ⟨"http", "example.com", "", "", "", ""⟩ ∧
    pyReplace "http://example.com" "\\_" "_" =
      urlunparse (⟨"http", "example.com", rewritePath "", "", "", ""⟩ : UrlParts) ∧
    convert_a ⟨true, false⟩ ⟨some "http://example.com", none, false⟩ "http://example.com" =
      "<http://example.com>" := by
  refine ⟨by decide, by decide, ?_⟩
  rw [claim_C6_autolink ⟨true, false⟩ ⟨some "http://example.com", none, false⟩
    "http://example.com" "http://example.com" ⟨"http", "example.com", "", "", "", ""⟩
    rfl (by decide) rfl (by decide) (by decide) rfl rfl (by decide) (by decide)]
  decide

/-! ## Round trip of `quote` and `unquote` (for claim C7) -/

theorem tokenizeGo_nil (f : Nat) : tokenizeGo f [] = [] := by cases f <;> rfl

theorem utf8DecodeGo_nil (f : Nat) : utf8DecodeGo f [] = [] := by cases f <;> rfl

theorem safeChar_ne_percent {c : Char} (h : safeChar c = true) : (c == '%') = false := by
  rcases Bool.eq_false_or_eq_true (c == '%') with h1 | h1
  · have hc : c = '%' := by simpa using h1
    subst hc
    exact absurd h (by decide)
  · exact h1

theorem hexUpper_isHexDigit : ∀ m, m < 16 → isHexDigitChar (hexUpper m) = true := by decide

theorem hexUpper_val : ∀ m, m < 16 → hexVal (hexUpper m) = m := by decide

theorem utf8Bytes_ne_nil (n : Nat) : utf8Bytes n ≠ [] := by
  rw [utf8Bytes]
  split
  · simp
  · split
    · simp
    · split <;> simp

theorem utf8Bytes_lt (n : Nat) (h : n < 0x110000) : ∀ b ∈ utf8Bytes n, b < 256 := by
  intro b hb
  rw [utf8Bytes] at hb
  split at hb
  · simp at hb; omega
  · split at hb
    · simp at hb; rcases hb with hb | hb <;> omega
    · split at hb
      · simp at hb; rcases hb with hb | hb | hb <;> omega
      · simp at hb; rcases hb with hb | hb | hb | hb <;> omega

theorem quoteChar_unsafe_flatMap (u : List Char) (h : ∀ x ∈ u, safeChar x = false) :
    u.flatMap quoteChar =
      (u.flatMap (fun x => utf8Bytes x.toNat)).flatMap percentEscape := by
  induction u with
  | nil => rfl
  | cons x u ih =>
    rw [List.flatMap_cons, List.flatMap_cons, List.flatMap_append]
    rw [quoteChar, if_neg (by simp [h x (List.mem_cons_self x u)])]
    rw [ih (fun y hy => h y (List.mem_cons_of_mem x hy))]

theorem flatMap_percentEscape_length (bs : List Nat) :
    (bs.flatMap percentEscape).length = 3 * bs.length := by
  induction bs with
  | nil => rfl
  | cons b bs ih =>
    rw [List.flatMap_cons, List.length_append, ih]
    simp [percentEscape]
    omega

theorem dropWhile_head_not (P : Char → Bool) :
    ∀ (l : List Char) (y : Char) (t : List Char), l.dropWhile P = y :: t → P y = false := by
  intro l
  induction l with
  | nil => intro y t h; simp [List.dropWhile] at h
  | cons a l ih =>
    intro y t h
    by_cases hp : P a = true
    · rw [List.dropWhile_cons_of_pos hp] at h
      exact ih y t h
    · rw [List.dropWhile_cons_of_neg hp] at h
      cases h
      simpa using hp

theorem utf8DecodeGo_chain : ∀ (cs : List Char) (f : Nat),
    (cs.flatMap (fun c => utf8Bytes c.toNat)).length ≤ f →
    utf8DecodeGo f (cs.flatMap (fun c => utf8Bytes c.toNat)) = cs := by
  intro cs
  induction cs with
  | nil => intro f _; exact utf8DecodeGo_nil f
  | cons c cs ih =>
    intro f hf
    have hv : c.toNat < 0xd800 ∨ (0xdfff < c.toNat ∧ c.toNat < 0x110000) := c.valid
    rw [List.flatMap_cons] at hf ⊢
    by_cases h1 : c.toNat < 0x80
    · have hb : utf8Bytes c.toNat = [c.toNat] := by rw [utf8Bytes, if_pos h1]
      rw [hb] at hf ⊢
      rw [List.singleton_append] at hf ⊢
      cases f with
      | zero => simp at hf
      | succ g =>
        simp only [utf8DecodeGo]
        rw [if_pos h1, Char.ofNat_toNat]
        congr 1
        exact ih g (by simp only [List.length_cons] at hf; omega)
    · by_cases h2 : c.toNat < 0x800
      · have hb : utf8Bytes c.toNat = [0xC0 + c.toNat / 0x40, 0x80 + c.toNat % 0x40] := by
          rw [utf8Bytes, if_neg h1, if_pos h2]
        rw [hb] at hf ⊢
        rw [List.cons_append, List.cons_append, List.nil_append] at hf ⊢
        cases f with
        | zero => simp at hf
        | succ g =>
          simp only [utf8DecodeGo]
          rw [if_neg (by omega), if_pos (by omega)]
          rw [if_pos (by omega)]
          rw [show (0xC0 + c.toNat / 0x40 - 0xC0) * 0x40 + (0x80 + c.toNat % 0x40 - 0x80) =
            c.toNat by omega]
          rw [Char.ofNat_toNat]
          congr 1
          exact ih g (by simp only [List.length_cons] at hf; omega)
      · by_cases h3 : c.toNat < 0x10000
        · have hb : utf8Bytes c.toNat = [0xE0 + c.toNat / 0x1000,
              0x80 + (c.toNat / 0x40) % 0x40, 0x80 + c.toNat % 0x40] := by
            rw [utf8Bytes, if_neg h1, if_neg h2, if_pos h3]
          rw [hb] at hf ⊢
          rw [List.cons_append, List.cons_append, List.cons_append, List.nil_append] at hf ⊢
          cases f with
          | zero => simp at hf
          | succ g =>
            simp only [utf8DecodeGo]
            rw [if_neg (by omega), if_neg (by omega), if_pos (by omega)]
            rw [if_pos (by omega)]
            rw [show (0xE0 + c.toNat / 0x1000 - 0xE0) * 0x1000 +
              (0x80 + c.toNat / 0x40 % 0x40 - 0x80) * 0x40 +
              (0x80 + c.toNat % 0x40 - 0x80) = c.toNat by omega]
            rw [Char.ofNat_toNat]
            congr 1
            exact ih g (by simp only [List.length_cons] at hf; omega)
        · have hb : utf8Bytes c.toNat = [0xF0 + c.toNat / 0x40000,
              0x80 + (c.toNat / 0x1000) % 0x40, 0x80 + (c.toNat / 0x40) % 0x40,
              0x80 + c.toNat % 0x40] := by
            rw [utf8Bytes, if_neg h1, if_neg h2, if_neg h3]
          rw [hb] at hf ⊢
          rw [List.cons_append, List.cons_append, List.cons_append, List.cons_append,
            List.nil_append] at hf ⊢
          cases f with
          | zero => simp at hf
          | succ g =>
            simp only [utf8DecodeGo]
            rw [if_neg (by omega), if_neg (by omega), if_neg (by omega), if_pos (by omega)]
            rw [if_pos (by omega)]
            rw [show (0xF0 + c.toNat / 0x40000 - 0xF0) * 0x40000 +
              (0x80 + c.toNat / 0x1000 % 0x40 - 0x80) * 0x1000 +
              (0x80 + c.toNat / 0x40 % 0x40 - 0x80) * 0x40 +
              (0x80 + c.toNat % 0x40 - 0x80) = c.toNat by omega]
            rw [Char.ofNat_toNat]
            congr 1
            exact ih g (by simp only [List.length_cons] at hf; omega)

/-- Decoding the concatenated UTF-8 encodings of a character list gives
back the characters. -/
theorem utf8DecodeReplace_chain (cs : List Char) :
    utf8DecodeReplace (cs.flatMap (fun c => utf8Bytes c.toNat)) = cs :=
  utf8DecodeGo_chain cs _ (Nat.le_refl _)

theorem tokenizeGo_escapes : ∀ (bs : List Nat) (f : Nat) (tl : List Char),
    (∀ b ∈ bs, b < 256) → 3 * bs.length + tl.length ≤ f →
    ∃ g, tl.length ≤ g ∧
      tokenizeGo f (bs.flatMap percentEscape ++ tl) = bs.map Tok.byte ++ tokenizeGo g tl := by
  intro bs
  induction bs with
  | nil => intro f tl _ hf; exact ⟨f, by simpa using hf, by simp⟩
  | cons b bs ih =>
    intro f tl hb hf
    simp only [List.length_cons] at hf
    cases f with
    | zero => omega
    | succ g =>
      have hblt : b < 256 := hb b (List.mem_cons_self b bs)
      rw [List.flatMap_cons, percentEscape]
      simp only [List.cons_append, List.nil_append, List.append_assoc]
      simp only [tokenizeGo]
      rw [if_pos (by decide)]
      rw [if_pos (by rw [hexUpper_isHexDigit _ (by omega), hexUpper_isHexDigit _ (by omega)]; rfl)]
      rw [hexUpper_val _ (by omega), hexUpper_val _ (by omega)]
      rw [show b / 16 * 16 + b % 16 = b by omega]
      obtain ⟨g2, hg2, he⟩ := ih g tl (fun x hx => hb x (List.mem_cons_of_mem b hx))
        (by omega)
      exact ⟨g2, hg2, by rw [he, List.map_cons, List.cons_append]⟩

theorem groupToks_map_byte (bs : List Nat) (h : bs ≠ []) (r : List Tok) :
    groupToks (bs.map Tok.byte ++ r) = prependRun bs (groupToks r) := by
  induction bs with
  | nil => exact absurd rfl h
  | cons b bs ih =>
    cases bs with
    | nil =>
      simp only [List.map_cons, List.map_nil, List.singleton_append]
      rw [groupToks]
      cases hg : groupToks r with
      | nil => rfl
      | cons gh gt => cases gh <;> rfl
    | cons b2 bs2 =>
      have hne : (b2 :: bs2) ≠ [] := by simp
      simp only [List.map_cons, List.cons_append] at ih ⊢
      rw [groupToks, ih hne]
      cases hg : groupToks r with
      | nil => rfl
      | cons gh gt => cases gh <;> rfl

theorem unquote_quote_aux : ∀ (N : Nat) (l : List Char) (f : Nat), l.length ≤ N →
    (l.flatMap quoteChar).length ≤ f →
    (groupToks (tokenizeGo f (l.flatMap quoteChar))).flatMap decodeGroup = l := by
  intro N
  induction N with
  | zero =>
    intro l f hN _
    have hnil : l = [] := by cases l <;> simp_all
    subst hnil
    rw [show ([] : List Char).flatMap quoteChar = [] from rfl, tokenizeGo_nil]
    rfl
  | succ N ih =>
    intro l f hN hf
    cases l with
    | nil =>
      rw [show ([] : List Char).flatMap quoteChar = [] from rfl, tokenizeGo_nil]
      rfl
    | cons c l2 =>
      by_cases hs : safeChar c = true
      · rw [List.flatMap_cons, quoteChar, if_pos hs, List.singleton_append] at hf ⊢
        cases f with
        | zero => simp at hf
        | succ g =>
          simp only [tokenizeGo]
          rw [if_neg (by simp [safeChar_ne_percent hs])]
          rw [groupToks]
          simp only [List.flatMap_cons, decodeGroup, List.singleton_append]
          congr 1
          exact ih l2 g (by simp only [List.length_cons] at hN; omega)
            (by simp only [List.length_cons] at hf; omega)
      · have hsf : safeChar c = false := by
          rcases Bool.eq_false_or_eq_true (safeChar c) with h | h
          · exact absurd h hs
          · exact h
        have hPc : (fun x => !(safeChar x)) c = true := by simp [hsf]
        cases hr : (c :: l2).dropWhile (fun x => !(safeChar x)) with
        | nil =>
          have hall : ∀ x ∈ c :: l2, (fun x => !(safeChar x)) x = true :=
            List.dropWhile_eq_nil_iff.mp hr
          have hu_unsafe : ∀ x ∈ c :: l2, safeChar x = false := fun x hx => by
            simpa using hall x hx
          have hqu := quoteChar_unsafe_flatMap _ hu_unsafe
          rw [hqu] at hf ⊢
          have hblt : ∀ b ∈ (c :: l2).flatMap (fun x => utf8Bytes x.toNat), b < 256 := by
            intro b hb
            rcases List.mem_flatMap.mp hb with ⟨x, _, hbx⟩
            have hv2 : x.toNat < 0xd800 ∨ (0xdfff < x.toNat ∧ x.toNat < 0x110000) := x.valid
            have hxv : x.toNat < 0x110000 := by rcases hv2 with h | h <;> omega
            exact utf8Bytes_lt x.toNat hxv b hbx
          have hfb : 3 * ((c :: l2).flatMap (fun x => utf8Bytes x.toNat)).length +
              ([] : List Char).length ≤ f := by
            rw [← flatMap_percentEscape_length]
            simpa using hf
          obtain ⟨g, _, htok⟩ := tokenizeGo_escapes _ f [] hblt hfb
          rw [List.append_nil] at htok
          rw [htok, tokenizeGo_nil]
          have hBne : (c :: l2).flatMap (fun x => utf8Bytes x.toNat) ≠ [] := by
            rw [List.flatMap_cons]
            intro hcon
            exact utf8Bytes_ne_nil c.toNat (List.append_eq_nil.mp hcon).1
          rw [groupToks_map_byte _ hBne]
          rw [show ∀ B : List Nat, prependRun B (groupToks []) = [Sum.inr B] from fun B => rfl]
          simp only [List.flatMap_cons, List.flatMap_nil, decodeGroup, List.append_nil]
          exact utf8DecodeReplace_chain (c :: l2)
        | cons c2 r2 =>
          have hc2 : safeChar c2 = true := by
            have := dropWhile_head_not (fun x => !(safeChar x)) (c :: l2) c2 r2 hr
            simpa using this
          have hur : (c :: l2).takeWhile (fun x => !(safeChar x)) ++ (c2 :: r2) = c :: l2 := by
            rw [← hr]
            exact List.takeWhile_append_dropWhile _ _
          have hu_unsafe : ∀ x ∈ (c :: l2).takeWhile (fun x => !(safeChar x)),
              safeChar x = false := by
            intro x hx
            have := List.mem_takeWhile_imp hx
            simpa using this
          have hqu := quoteChar_unsafe_flatMap _ hu_unsafe
          have hflat : (c :: l2).flatMap quoteChar =
              (((c :: l2).takeWhile (fun x => !(safeChar x))).flatMap
                (fun x => utf8Bytes x.toNat)).flatMap percentEscape ++
              (c2 :: r2).flatMap quoteChar := by
            conv_lhs => rw [← hur]
            rw [List.flatMap_append, hqu]
          rw [hflat] at hf ⊢
          have hblt : ∀ b ∈ ((c :: l2).takeWhile (fun x => !(safeChar x))).flatMap
              (fun x => utf8Bytes x.toNat), b < 256 := by
            intro b hb
            rcases List.mem_flatMap.mp hb with ⟨x, _, hbx⟩
            have hv2 : x.toNat < 0xd800 ∨ (0xdfff < x.toNat ∧ x.toNat < 0x110000) := x.valid
            have hxv : x.toNat < 0x110000 := by rcases hv2 with h | h <;> omega
            exact utf8Bytes_lt x.toNat hxv b hbx
          have hfb : 3 * (((c :: l2).takeWhile (fun x => !(safeChar x))).flatMap
              (fun x => utf8Bytes x.toNat)).length +
              ((c2 :: r2).flatMap quoteChar).length ≤ f := by
            rw [← flatMap_percentEscape_length]
            simpa [List.length_append] using hf
          obtain ⟨g, hg, htok⟩ := tokenizeGo_escapes _ f _ hblt hfb
          rw [htok]
          rw [List.flatMap_cons, quoteChar, if_pos hc2, List.singleton_append] at hg
          cases g with
          | zero => simp at hg
          | succ g2 =>
            rw [List.flatMap_cons, quoteChar, if_pos hc2, List.singleton_append]
            simp only [tokenizeGo]
            rw [if_neg (by simp [safeChar_ne_percent hc2])]
            have hBne : ((c :: l2).takeWhile (fun x => !(safeChar x))).flatMap
                (fun x => utf8Bytes x.toNat) ≠ [] := by
              rw [@List.takeWhile_cons_of_pos _ (fun x => !(safeChar x)) c l2 hPc,
                List.flatMap_cons]
              intro hcon
              exact utf8Bytes_ne_nil c.toNat (List.append_eq_nil.mp hcon).1
            rw [groupToks_map_byte _ hBne]
            rw [groupToks]
            rw [show ∀ (B : List Nat) (G : List (Sum Char (List Nat))),
              prependRun B (Sum.inl c2 :: G) = Sum.inr B :: Sum.inl c2 :: G
              from fun B G => rfl]
            simp only [List.flatMap_cons, decodeGroup, List.singleton_append]
            have hr2len : r2.length ≤ N := by
              have hlen := congrArg List.length hur
              simp only [List.length_append, List.length_cons] at hlen
              simp only [List.length_cons] at hN
              omega
            have hr2fuel : (r2.flatMap quoteChar).length ≤ g2 := by
              simp only [List.length_cons] at hg
              omega
            rw [ih r2 g2 hr2len hr2fuel]
            rw [utf8DecodeReplace_chain ((c :: l2).takeWhile (fun x => !(safeChar x)))]
            rw [show ((c2 :: ((r2 : List Char) : List Char)) : List Char) = [c2] ++ r2 from rfl]
            rw [← List.append_assoc]
            rw [List.append_assoc]
            simpa using hur

/-- Python round trip: `unquote(quote(s)) == s` — `quote` percent-escapes
the UTF-8 bytes of every unsafe character, and `unquote` decodes exactly
those escapes back. -/
theorem pyUnquote_pyQuote (s : String) : pyUnquote (pyQuote s) = s := by
  rw [pyQuote, pyUnquote]
  show String.mk ((groupToks (tokenize (s.data.flatMap quoteChar))).flatMap decodeGroup) = s
  rw [tokenize]
  rw [unquote_quote_aux s.data.length s.data _ (Nat.le_refl _) (Nat.le_refl _)]

/-- Claim C7: the href path rewrite of `convert_a`
(percent-decode the path, then re-percent-encode it) is idempotent, and on
the spec's example `"/a b"` rewrites to `"/a%20b"`, which rewrites to
itself. -/
theorem claim_C7_rewrite_idempotent :
    (∀ p : String, rewritePath (rewritePath p) = rewritePath p) ∧
    rewritePath "/a b" = "/a%20b" ∧ rewritePath "/a%20b" = "/a%20b" := by
  refine ⟨fun p => ?_, by decide, by decide⟩
  conv_lhs => rw [rewritePath, rewritePath, pyUnquote_pyQuote]
  rfl

end Markitdown
